import Mathlib

/-!
Shallow embedding of `src/matchcommits.py` (the closest-commit search of
ajoctools) and proofs about it.

Histories are first-parent chains, represented as lists of commits, nearest
first: the parent of a commit is the next element of the list, and the last
element is the root (it has no parent).  Fetching `parents[0]` of the root
raises `IndexError` in Python; every function that can reach that point
returns `Except Unit _`, with `.error ()` standing for the raised exception.

The Python candidate stack (`stack` in `find_closest_commits`) is held here
in reversed order, most recently appended commit first: Python's
`stack.append(c)` is `c :: rstack`, `stack.pop()` removes the head, and
Python's `stack[0]` (the earliest appended entry, the branch tip end) is the
last element of `rstack`.  This keeps every recursion structural, so all
definitions compute by kernel reduction.
-/

namespace MatchCommits

/-- A commit: a unique identifier together with its committed timestamp
(an integer number of time units, standing for `committed_datetime`). -/
structure Commit where
  id : Nat
  ts : Int
deriving DecidableEq, Repr

/-- Absolute time distance from a commit to the reference timestamp `t`:
the sort key `abs(c.committed_datetime - target_commit_datetime)` of line 165. -/
def dist (t : Int) (c : Commit) : Nat := (c.ts - t).natAbs

/-- Boolean comparison by distance, the ordering used by the stable sort. -/
def distLe (t : Int) (a b : Commit) : Bool := decide (dist t a ≤ dist t b)

/-- The out-of-order lineage check of `find_closest_commits` (lines 125-132):
walk up to `fuel` primary-parent steps along `ancestors` (the proper ancestors
of the reference commit, nearest first), returning true at the first ancestor
whose timestamp is strictly later than the reference timestamp `t`.
Taking `parents[0]` of the root raises `IndexError`, modelled as `.error ()`. -/
def detectOOO (t : Int) : Nat → List Commit → Except Unit Bool
  | 0, _ => .ok false
  | _ + 1, [] => .error ()
  | n + 1, p :: rest => if p.ts > t then .ok true else detectOOO t n rest

/-- Instrumented variant of `detectOOO` that also counts how many parent
lookups were performed (a call counter on the commit-graph provider). -/
def detectOOON (t : Int) : Nat → List Commit → Except Unit (Bool × Nat)
  | 0, _ => .ok (false, 0)
  | _ + 1, [] => .error ()
  | n + 1, p :: rest =>
    if p.ts > t then .ok (true, 1)
    else
      match detectOOON t n rest with
      | .ok (b, k) => .ok (b, k + 1)
      | .error e => .error e

/-- The inner `while` of lines 146-149: while the stack is non-empty and
`next`'s timestamp is later than the timestamp of Python's `stack[0]` (the
last element of `rstack`), pop the most recently appended entry (the head of
`rstack`) onto the out-of-order list. -/
def evictLoop (next : Commit) : List Commit → List Commit → List Commit × List Commit
  | [], ooo => ([], ooo)
  | c :: rest, ooo =>
    if next.ts > ((c :: rest).getLast (by simp)).ts then
      evictLoop next rest (ooo ++ [c])
    else (c :: rest, ooo)

/-- The outer `while count:` loop of lines 143-157.  `remaining` is the chain
of not yet visited ancestors of the branch tip (so `stack[-1].parents[0]` is
its head, and `.error ()` is the `IndexError` raised at the root); `rstack` is
the Python stack reversed; `count` is the countdown variable (a Python `int`,
negative meaning inactive). -/
def buildLoop (t : Int) : List Commit → List Commit → List Commit → Int →
    Except Unit (List Commit × List Commit)
  | remaining, rstack, ooo, count =>
    if count = 0 then .ok (rstack, ooo)
    else
      match remaining with
      | [] => .error ()
      | next :: rest =>
        let so := evictLoop next rstack ooo
        let count1 : Int := if next.ts < t ∧ count < 0 then 200 else count
        let count2 : Int := if count1 > 0 ∧ next.ts > t then -1 else count1
        buildLoop t rest (next :: so.1) so.2 (count2 - 1)

/-- Instrumented variant of `buildLoop` that also counts how many parent
lookups (loop iterations) were performed. -/
def buildLoopN (t : Int) : List Commit → List Commit → List Commit → Int → Nat →
    Except Unit (List Commit × List Commit × Nat)
  | remaining, rstack, ooo, count, steps =>
    if count = 0 then .ok (rstack, ooo, steps)
    else
      match remaining with
      | [] => .error ()
      | next :: rest =>
        let so := evictLoop next rstack ooo
        let count1 : Int := if next.ts < t ∧ count < 0 then 200 else count
        let count2 : Int := if count1 > 0 ∧ next.ts > t then -1 else count1
        buildLoopN t rest (next :: so.1) so.2 (count2 - 1) (steps + 1)

/-- The merge and filter steps of the selector (lines 159-164): concatenate
the anomalies when the reference is treated as out-of-order, then apply the
`always_after` / `always_before` filter (an `elif`, so at most one applies). -/
def mergedFiltered (candidates anomalies : List Commit) (t : Int)
    (targetOOO alwaysAfter alwaysBefore : Bool) : List Commit :=
  let stack := if targetOOO then candidates ++ anomalies else candidates
  if alwaysAfter then stack.filter (fun c => decide (c.ts ≥ t))
  else if alwaysBefore then stack.filter (fun c => decide (c.ts < t))
  else stack

/-- The selector (lines 159-167): merge, filter, stable-sort by absolute
distance to `t` (Python's `list.sort` is stable, modelled by `mergeSort`),
and return the first element together with the second if there is one.
`stack[0]` on an empty list raises `IndexError`, modelled as `none`. -/
def select_closest (candidates anomalies : List Commit) (t : Int)
    (targetOOO alwaysAfter alwaysBefore : Bool) : Option (Commit × Option Commit) :=
  match (mergedFiltered candidates anomalies t targetOOO alwaysAfter alwaysBefore).mergeSort
      (distLe t) with
  | [] => none
  | b :: rest => some (b, rest.head?)

/-- `find_closest_commits` (lines 120-167).  `t` is the reference commit's
committed timestamp, `refAncestors` the proper ancestors of the reference
commit (for the out-of-order check), `tip` the resolved branch tip of the
searched repository and `tipAncestors` its proper ancestors; the three flags
are `--search-out-of-order`, `--always-after` and `--always-before`. -/
def find_closest_commits (t : Int) (refAncestors : List Commit)
    (tip : Commit) (tipAncestors : List Commit)
    (searchOutOfOrder alwaysAfter alwaysBefore : Bool) :
    Except Unit (Commit × Option Commit) :=
  match detectOOO t 200 refAncestors with
  | .error e => .error e
  | .ok detected =>
    let targetOOO := detected || searchOutOfOrder
    match buildLoop t tipAncestors [tip] [] (-1) with
    | .error e => .error e
    | .ok (rstack, ooo) =>
      match select_closest rstack.reverse ooo t targetOOO alwaysAfter alwaysBefore with
      | some r => .ok r
      | none => .error ()

/-- A commit list is non-increasing in committed time, read front to back. -/
def nonIncreasingTs : List Commit → Bool
  | [] => true
  | [_] => true
  | a :: b :: rest => decide (b.ts ≤ a.ts) && nonIncreasingTs (b :: rest)

instance {e a : Type} [DecidableEq e] [DecidableEq a] : DecidableEq (Except e a)
  | .error x, .error y => decidable_of_iff (x = y) (by simp)
  | .error _, .ok _ => .isFalse (by simp)
  | .ok _, .error _ => .isFalse (by simp)
  | .ok x, .ok y => decidable_of_iff (x = y) (by simp)

/-! ### Lemmas about the eviction loop -/

theorem evictLoop_perm (next : Commit) :
    ∀ (s o : List Commit), ((evictLoop next s o).1 ++ (evictLoop next s o).2).Perm (s ++ o)
  | [], o => by simp [evictLoop]
  | c :: rest, o => by
    rw [evictLoop]
    split
    · refine (evictLoop_perm next rest (o ++ [c])).trans ?_
      have h1 : rest ++ (o ++ [c]) = (rest ++ o) ++ [c] := by simp
      rw [h1]
      exact List.perm_append_singleton c (rest ++ o)
    · simp

theorem evictLoop_ooo_sub (next x : Commit) :
    ∀ (s o : List Commit), x ∈ o → x ∈ (evictLoop next s o).2
  | [], o, hx => hx
  | c :: rest, o, hx => by
    rw [evictLoop]
    split
    · exact evictLoop_ooo_sub next x rest (o ++ [c]) (List.mem_append_left [c] hx)
    · exact hx

theorem evictLoop_stack_sub (next x : Commit) :
    ∀ (s o : List Commit), x ∈ (evictLoop next s o).1 → x ∈ s
  | [], o, hx => hx
  | c :: rest, o, hx => by
    rw [evictLoop] at hx
    revert hx
    split
    · exact fun hx => List.mem_cons_of_mem c (evictLoop_stack_sub next x rest (o ++ [c]) hx)
    · exact fun hx => hx

theorem evictLoop_getLast? (next : Commit) :
    ∀ (s o : List Commit), (evictLoop next s o).1 ≠ [] →
      (evictLoop next s o).1.getLast? = s.getLast?
  | [], o, h => by simp [evictLoop] at h
  | c :: rest, o, h => by
    rw [evictLoop] at h ⊢
    revert h
    split
    · intro h
      have hrest : rest ≠ [] := by
        intro he
        subst he
        simp [evictLoop] at h
      rw [evictLoop_getLast? next rest (o ++ [c]) h]
      obtain ⟨b, l, rfl⟩ := List.exists_cons_of_ne_nil hrest
      simp
    · intro _
      rfl

theorem evictLoop_exit (next : Commit) :
    ∀ (s o : List Commit), ∀ b ∈ (evictLoop next s o).1.getLast?, next.ts ≤ b.ts
  | [], o => by simp [evictLoop]
  | c :: rest, o => by
    rw [evictLoop]
    split
    · exact evictLoop_exit next rest (o ++ [c])
    · rename_i hcond
      show ∀ b ∈ (c :: rest).getLast?, next.ts ≤ b.ts
      intro b hb
      rw [List.getLast?_eq_getLast _ (by simp)] at hb
      simp only [Option.mem_def, Option.some.injEq] at hb
      subst hb
      exact le_of_not_lt hcond

/-! ### Unfolding equations and invariants of the main traversal loop -/

theorem buildLoop_stop (t : Int) (remaining rstack ooo : List Commit) :
    buildLoop t remaining rstack ooo 0 = .ok (rstack, ooo) := by
  cases remaining <;> rw [buildLoop] <;> simp

theorem buildLoop_nil (t : Int) (rstack ooo : List Commit) (count : Int) (hc : count ≠ 0) :
    buildLoop t [] rstack ooo count = .error () := by
  rw [buildLoop]
  simp [hc]

theorem buildLoop_cons (t : Int) (next : Commit) (rest rstack ooo : List Commit) (count : Int)
    (hc : count ≠ 0) :
    buildLoop t (next :: rest) rstack ooo count
      = buildLoop t rest (next :: (evictLoop next rstack ooo).1) (evictLoop next rstack ooo).2
        (((if (if next.ts < t ∧ count < 0 then (200 : Int) else count) > 0 ∧ next.ts > t
            then (-1 : Int)
            else if next.ts < t ∧ count < 0 then (200 : Int) else count)) - 1) := by
  rw [buildLoop]
  simp [hc]

theorem buildLoop_bounded (t : Int) :
    ∀ (remaining rstack ooo : List Commit) (count : Int) (s o : List Commit),
      buildLoop t remaining rstack ooo count = .ok (s, o) →
      (∀ b ∈ rstack.getLast?, ∀ x ∈ rstack, x.ts ≤ b.ts) →
      (∀ b ∈ s.getLast?, ∀ x ∈ s, x.ts ≤ b.ts)
  | [], rstack, ooo, count, s, o, h, hinv => by
    by_cases hc : count = 0
    · subst hc
      rw [buildLoop_stop] at h
      cases h
      exact hinv
    · rw [buildLoop_nil t rstack ooo count hc] at h
      cases h
  | next :: rest, rstack, ooo, count, s, o, h, hinv => by
    by_cases hc : count = 0
    · subst hc
      rw [buildLoop_stop] at h
      cases h
      exact hinv
    · rw [buildLoop_cons t next rest rstack ooo count hc] at h
      refine buildLoop_bounded t rest _ _ _ s o h ?_
      intro b hb x hx
      match hr : (evictLoop next rstack ooo).1 with
      | [] =>
        rw [hr] at hb hx
        simp only [List.getLast?_singleton, Option.mem_def, Option.some.injEq] at hb
        subst hb
        simp only [List.mem_singleton] at hx
        subst hx
        exact le_refl _
      | c :: l =>
        rw [hr] at hb hx
        have hne : (c :: l : List Commit) ≠ [] := by simp
        have hlast : (next :: c :: l).getLast? = (c :: l).getLast? := by simp
        rw [hlast] at hb
        have hb' : b ∈ (evictLoop next rstack ooo).1.getLast? := by rw [hr]; exact hb
        rcases List.mem_cons.mp hx with hx | hx
        · rw [hx]
          exact evictLoop_exit next rstack ooo b hb'
        · have hxs : x ∈ rstack := by
            refine evictLoop_stack_sub next x rstack ooo ?_
            rw [hr]
            exact hx
          have hbs : b ∈ rstack.getLast? := by
            rw [← evictLoop_getLast? next rstack ooo (by rw [hr]; exact hne)]
            exact hb'
          exact hinv b hbs x hxs

theorem buildLoop_perm (t : Int) :
    ∀ (remaining rstack ooo : List Commit) (count : Int) (s o : List Commit),
      buildLoop t remaining rstack ooo count = .ok (s, o) →
      ∃ n, (s ++ o).Perm (rstack ++ ooo ++ remaining.take n)
  | [], rstack, ooo, count, s, o, h => by
    by_cases hc : count = 0
    · subst hc
      rw [buildLoop_stop] at h
      cases h
      exact ⟨0, by simp⟩
    · rw [buildLoop_nil t rstack ooo count hc] at h
      cases h
  | next :: rest, rstack, ooo, count, s, o, h => by
    by_cases hc : count = 0
    · subst hc
      rw [buildLoop_stop] at h
      cases h
      exact ⟨0, by simp⟩
    · rw [buildLoop_cons t next rest rstack ooo count hc] at h
      obtain ⟨n, hn⟩ := buildLoop_perm t rest _ _ _ s o h
      refine ⟨n + 1, ?_⟩
      refine hn.trans ?_
      have h1 : (next :: (evictLoop next rstack ooo).1) ++ (evictLoop next rstack ooo).2
          ++ rest.take n
          = next :: ((evictLoop next rstack ooo).1 ++ (evictLoop next rstack ooo).2
            ++ rest.take n) := by simp
      rw [h1, List.take_succ_cons]
      refine ((((evictLoop_perm next rstack ooo).append_right (rest.take n)).cons next).trans ?_)
      have h2 : rstack ++ ooo ++ (next :: rest.take n)
          = (rstack ++ ooo) ++ next :: rest.take n := by simp
      rw [h2]
      exact (List.perm_middle).symm

theorem buildLoop_ooo_mono (t : Int) (x : Commit) :
    ∀ (remaining rstack ooo : List Commit) (count : Int) (s o : List Commit),
      buildLoop t remaining rstack ooo count = .ok (s, o) → x ∈ ooo → x ∈ o
  | [], rstack, ooo, count, s, o, h, hx => by
    by_cases hc : count = 0
    · subst hc
      rw [buildLoop_stop] at h
      cases h
      exact hx
    · rw [buildLoop_nil t rstack ooo count hc] at h
      cases h
  | next :: rest, rstack, ooo, count, s, o, h, hx => by
    by_cases hc : count = 0
    · subst hc
      rw [buildLoop_stop] at h
      cases h
      exact hx
    · rw [buildLoop_cons t next rest rstack ooo count hc] at h
      exact buildLoop_ooo_mono t x rest _ _ _ s o h (evictLoop_ooo_sub next x rstack ooo hx)

/-! ### Lemmas about the selector -/

theorem distLe_trans (t : Int) : ∀ (a b c : Commit), distLe t a b → distLe t b c → distLe t a c := by
  intro a b c hab hbc
  simp only [distLe, decide_eq_true_eq] at hab hbc ⊢
  omega

theorem distLe_total (t : Int) : ∀ (a b : Commit), distLe t a b || distLe t b a := by
  intro a b
  simp only [distLe, Bool.or_eq_true, decide_eq_true_eq]
  exact Nat.le_total _ _

theorem select_closest_shape (c a : List Commit) (t : Int) (o af bf : Bool)
    (hL : mergedFiltered c a t o af bf ≠ []) :
    ∃ b r, (mergedFiltered c a t o af bf).mergeSort (distLe t) = b :: r
      ∧ select_closest c a t o af bf = some (b, r.head?) := by
  have hlen : ((mergedFiltered c a t o af bf).mergeSort (distLe t)).length ≠ 0 := by
    rw [List.length_mergeSort]
    simpa [List.length_eq_zero] using hL
  match hS : (mergedFiltered c a t o af bf).mergeSort (distLe t) with
  | [] => rw [hS] at hlen; simp at hlen
  | b :: r =>
    refine ⟨b, r, rfl, ?_⟩
    rw [select_closest, hS]

theorem select_closest_mem (c a : List Commit) (t : Int) (o af bf : Bool) (b : Commit)
    (sb : Option Commit) (h : select_closest c a t o af bf = some (b, sb)) :
    b ∈ mergedFiltered c a t o af bf ∧ ∀ s2 ∈ sb, s2 ∈ mergedFiltered c a t o af bf := by
  match hS : (mergedFiltered c a t o af bf).mergeSort (distLe t) with
  | [] => rw [select_closest, hS] at h; cases h
  | b' :: r =>
    rw [select_closest, hS] at h
    have hb : b' = b ∧ r.head? = sb := by
      have := h
      simp only [Option.some.injEq, Prod.mk.injEq] at this
      exact this
    obtain ⟨rfl, hsb⟩ := hb
    constructor
    · refine (List.mergeSort_perm _ (distLe t)).subset ?_
      rw [hS]
      exact List.mem_cons_self _ _
    · intro s2 hs2
      rw [← hsb] at hs2
      match hr : r with
      | [] => simp at hs2
      | r0 :: r' =>
        simp only [List.head?_cons, Option.mem_def, Option.some.injEq] at hs2
        subst hs2
        refine (List.mergeSort_perm _ (distLe t)).subset ?_
        rw [hS]
        exact List.mem_cons_of_mem _ (List.mem_cons_self _ _)

theorem select_closest_min (c a : List Commit) (t : Int) (o af bf : Bool) (b : Commit)
    (sb : Option Commit) (h : select_closest c a t o af bf = some (b, sb)) :
    ∀ x ∈ mergedFiltered c a t o af bf, dist t b ≤ dist t x := by
  match hS : (mergedFiltered c a t o af bf).mergeSort (distLe t) with
  | [] => rw [select_closest, hS] at h; cases h
  | b' :: r =>
    rw [select_closest, hS] at h
    have hb : b' = b := by
      simp only [Option.some.injEq, Prod.mk.injEq] at h
      exact h.1
    have hsorted : ((mergedFiltered c a t o af bf).mergeSort (distLe t)).Pairwise
        (fun x y => distLe t x y) :=
      List.sorted_mergeSort (distLe_trans t) (distLe_total t) _
    rw [hS, List.pairwise_cons] at hsorted
    intro x hx
    have hx2 : x ∈ b' :: r := by
      rw [← hS]
      exact ((List.mergeSort_perm _ (distLe t)).mem_iff).mpr hx
    rw [← hb]
    rcases List.mem_cons.mp hx2 with rfl | hx3
    · exact le_refl _
    · have := hsorted.1 x hx3
      simpa [distLe, decide_eq_true_eq] using this

theorem mergeSort_filter_key (t : Int) (L : List Commit) (k : Nat) :
    (L.mergeSort (distLe t)).filter (fun x => dist t x == k)
      = L.filter (fun x => dist t x == k) := by
  have hpair : (L.filter (fun x => dist t x == k)).Pairwise (fun x y => distLe t x y) := by
    refine List.pairwise_of_forall_mem_list ?_
    intro x hx y hy
    have hxk := (List.mem_filter.mp hx).2
    have hyk := (List.mem_filter.mp hy).2
    simp only [beq_iff_eq] at hxk hyk
    simp only [distLe, decide_eq_true_eq]
    omega
  have hsub : List.Sublist (L.filter (fun x => dist t x == k)) (L.mergeSort (distLe t)) :=
    List.sublist_mergeSort (distLe_trans t) (distLe_total t) hpair (List.filter_sublist L)
  have hperm : ((L.mergeSort (distLe t)).filter (fun x => dist t x == k)).Perm
      (L.filter (fun x => dist t x == k)) :=
    (List.mergeSort_perm L (distLe t)).filter _
  have hsub2 : List.Sublist (L.filter (fun x => dist t x == k))
      ((L.mergeSort (distLe t)).filter (fun x => dist t x == k)) := by
    have h1 := List.Sublist.filter (fun x => dist t x == k) hsub
    rw [List.filter_filter] at h1
    simpa only [Bool.and_self] using h1
  exact (hsub2.eq_of_length hperm.length_eq.symm).symm

/-- C1: the selector stable-sorts the merged, filtered candidate list by
absolute time distance to the reference timestamp, ascending, and returns the
first element of that stable sort as best and its second element as
second-best, the latter being absent exactly when the list has fewer than two
entries.  The sorted list is pinned completely: it is a permutation of the
merged/filtered list, sorted by distance, and at every distance value its
ties appear in exactly the merged/filtered traversal order (so under ties
both best and second-best are the traversal-order-first choices). -/
theorem select_closest_spec (c a : List Commit) (t : Int) (o af bf : Bool)
    (L : List Commit) (hLdef : L = mergedFiltered c a t o af bf) (hL : L ≠ []) :
    ∃ b sb, select_closest c a t o af bf = some (b, sb)
      ∧ (L.mergeSort (distLe t)).Perm L
      ∧ (L.mergeSort (distLe t)).Pairwise (fun x y => dist t x ≤ dist t y)
      ∧ (∀ k : Nat, (L.mergeSort (distLe t)).filter (fun x => dist t x == k)
          = L.filter (fun x => dist t x == k))
      ∧ (L.mergeSort (distLe t)).head? = some b
      ∧ sb = (L.mergeSort (distLe t)).tail.head?
      ∧ b ∈ L
      ∧ (∀ x ∈ L, dist t b ≤ dist t x)
      ∧ (L.filter (fun x => distLe t x b)).head? = some b
      ∧ (sb = none ↔ L.length < 2)
      ∧ ∀ s2, sb = some s2 →
          ∃ L2, L.Perm (b :: s2 :: L2) ∧ ∀ x ∈ s2 :: L2, dist t s2 ≤ dist t x := by
  subst hLdef
  obtain ⟨b, r, hS, hsel⟩ := select_closest_shape c a t o af bf hL
  set L := mergedFiltered c a t o af bf with hLdef
  refine ⟨b, r.head?, hsel, List.mergeSort_perm L (distLe t), ?_,
    fun k => mergeSort_filter_key t L k, by rw [hS]; rfl, by rw [hS]; rfl, ?_, ?_, ?_, ?_, ?_⟩
  · exact (List.sorted_mergeSort (distLe_trans t) (distLe_total t) L).imp
      (fun h => by simpa [distLe, decide_eq_true_eq] using h)
  · refine (List.mergeSort_perm _ (distLe t)).subset ?_
    rw [hS]
    exact List.mem_cons_self _ _
  · exact select_closest_min c a t o af bf b r.head? hsel
  · -- stability: best is the first element of L attaining the minimal distance
    have hmin : ∀ x ∈ L, dist t b ≤ dist t x :=
      select_closest_min c a t o af bf b r.head? hsel
    have hties : ∀ x ∈ L.filter (fun x => distLe t x b), dist t x = dist t b := by
      intro x hx
      rw [List.mem_filter] at hx
      have h1 : dist t x ≤ dist t b := by
        have := hx.2
        simpa [distLe, decide_eq_true_eq] using this
      exact le_antisymm h1 (hmin x hx.1)
    have hpair : (L.filter (fun x => distLe t x b)).Pairwise (fun x y => distLe t x y) := by
      refine List.pairwise_of_forall_mem_list ?_
      intro x hx y hy
      have hxb := hties x hx
      have hyb := hties y hy
      simp only [distLe, decide_eq_true_eq]
      omega
    have hsub : List.Sublist (L.filter (fun x => distLe t x b)) (L.mergeSort (distLe t)) :=
      List.sublist_mergeSort (distLe_trans t) (distLe_total t) hpair (List.filter_sublist L)
    have hperm : ((L.mergeSort (distLe t)).filter (fun x => distLe t x b)).Perm
        (L.filter (fun x => distLe t x b)) :=
      (List.mergeSort_perm L (distLe t)).filter _
    have hsub2 : List.Sublist (L.filter (fun x => distLe t x b))
        ((L.mergeSort (distLe t)).filter (fun x => distLe t x b)) := by
      have h1 := List.Sublist.filter (fun x => distLe t x b) hsub
      rw [List.filter_filter] at h1
      simpa only [Bool.and_self] using h1
    have heq : L.filter (fun x => distLe t x b)
        = (L.mergeSort (distLe t)).filter (fun x => distLe t x b) :=
      hsub2.eq_of_length hperm.length_eq.symm
    rw [heq, hS]
    simp [List.filter_cons, distLe]
  · have hlen : L.length = r.length + 1 := by
      have h1 : (L.mergeSort (distLe t)).length = L.length :=
        (List.mergeSort_perm L (distLe t)).length_eq
      rw [hS] at h1
      simpa using h1.symm
    rw [hlen, List.head?_eq_none_iff]
    cases r <;> simp
  · intro s2 hs2
    match hr : r, hs2 with
    | [], hs2 => exact absurd hs2 (by simp)
    | r0 :: r', hs2 =>
      simp only [List.head?_cons, Option.some.injEq] at hs2
      subst hs2
      refine ⟨r', ?_, ?_⟩
      · have hp := (List.mergeSort_perm L (distLe t)).symm
        rw [hS] at hp
        exact hp
      · have hsorted : (L.mergeSort (distLe t)).Pairwise (fun x y => distLe t x y) :=
          List.sorted_mergeSort (distLe_trans t) (distLe_total t) _
        rw [hS, List.pairwise_cons] at hsorted
        have htail := hsorted.2
        rw [List.pairwise_cons] at htail
        intro x hx
        rcases List.mem_cons.mp hx with rfl | hx
        · exact le_refl _
        · have := htail.1 x hx
          simpa [distLe, decide_eq_true_eq] using this

theorem select_closest_spec_witness :
    (select_closest [⟨0, 5⟩, ⟨1, 3⟩] [] 4 false false false).isSome = true := by
  obtain ⟨b, sb, h, -⟩ :=
    select_closest_spec [⟨0, 5⟩, ⟨1, 3⟩] [] 4 false false false
      (mergedFiltered [⟨0, 5⟩, ⟨1, 3⟩] [] 4 false false false) rfl (by decide)
  rw [h]
  rfl

/-- C7: with the always-after filter active every returned candidate has
timestamp at least the reference timestamp, with the always-before filter
active (and always-after off) every returned candidate is strictly earlier,
and the two filters are applied through an `elif`, so at most one is active:
passing both flags behaves exactly as passing only always-after. -/
theorem force_filters (c a : List Commit) (t : Int) (o af bf : Bool)
    (b : Commit) (sb : Option Commit)
    (h : select_closest c a t o af bf = some (b, sb)) :
    (af = true → t ≤ b.ts ∧ ∀ s2 ∈ sb, t ≤ s2.ts)
    ∧ (af = false → bf = true → b.ts < t ∧ ∀ s2 ∈ sb, s2.ts < t)
    ∧ select_closest c a t o true true = select_closest c a t o true false := by
  refine ⟨?_, ?_, rfl⟩
  · rintro rfl
    obtain ⟨hb, hsb⟩ := select_closest_mem c a t o true bf b sb h
    rw [mergedFiltered, if_pos rfl] at hb hsb
    constructor
    · have := (List.mem_filter.mp hb).2
      simpa [decide_eq_true_eq, ge_iff_le] using this
    · intro s2 hs2
      have := (List.mem_filter.mp (hsb s2 hs2)).2
      simpa [decide_eq_true_eq, ge_iff_le] using this
  · rintro rfl rfl
    obtain ⟨hb, hsb⟩ := select_closest_mem c a t o false true b sb h
    rw [mergedFiltered] at hb hsb
    simp only [Bool.false_eq_true, if_false, if_pos rfl] at hb hsb
    constructor
    · have := (List.mem_filter.mp hb).2
      simpa [decide_eq_true_eq] using this
    · intro s2 hs2
      have := (List.mem_filter.mp (hsb s2 hs2)).2
      simpa [decide_eq_true_eq] using this

theorem force_filters_witness :
    select_closest [⟨0, 5⟩, ⟨1, 3⟩] [] 4 false true false = some (⟨0, 5⟩, none)
      ∧ (4 : Int) ≤ 5 := by
  have h : select_closest [⟨0, 5⟩, ⟨1, 3⟩] [] 4 false true false = some (⟨0, 5⟩, none) := by
    decide!
  exact ⟨h, ((force_filters [⟨0, 5⟩, ⟨1, 3⟩] [] 4 false true false ⟨0, 5⟩ none h).1 rfl).1⟩

/-- C8: merging the anomaly list onto a non-empty candidate list never makes
the selected best commit worse: the distance of the best over candidates
concatenated with anomalies is at most the distance of the best over the
candidates alone. -/
theorem anomalies_not_worse (c a : List Commit) (t : Int) (hc : c ≠ []) :
    ∃ b1 sb1 b2 sb2,
      select_closest c a t true false false = some (b1, sb1)
      ∧ select_closest c a t false false false = some (b2, sb2)
      ∧ dist t b1 ≤ dist t b2 := by
  have hL1 : mergedFiltered c a t true false false = c ++ a := by
    rw [mergedFiltered]
    simp
  have hL2 : mergedFiltered c a t false false false = c := by
    rw [mergedFiltered]
    simp
  obtain ⟨b1, r1, _, hsel1⟩ := select_closest_shape c a t true false false
    (by rw [hL1]; simp [hc])
  obtain ⟨b2, r2, _, hsel2⟩ := select_closest_shape c a t false false false
    (by rw [hL2]; exact hc)
  refine ⟨b1, r1.head?, b2, r2.head?, hsel1, hsel2, ?_⟩
  have hmin := select_closest_min c a t true false false b1 r1.head? hsel1
  have hb2 := (select_closest_mem c a t false false false b2 r2.head? hsel2).1
  refine hmin b2 ?_
  rw [hL1]
  rw [hL2] at hb2
  exact List.mem_append_left a hb2

theorem anomalies_not_worse_witness :
    (select_closest [⟨0, 9⟩] [⟨1, 4⟩] 4 true false false).isSome = true := by
  obtain ⟨b1, sb1, b2, sb2, h1, h2, hle⟩ :=
    anomalies_not_worse [⟨0, 9⟩] [⟨1, 4⟩] 4 (by decide)
  rw [h1]
  rfl

/-! ### The out-of-order lineage check -/

theorem detectOOO_found (t : Int) :
    ∀ (i fuel : Nat) (ancs : List Commit) (hi : i < ancs.length), i < fuel →
      (∀ j (hj : j < ancs.length), j < i → ¬((ancs.get ⟨j, hj⟩).ts > t)) →
      (ancs.get ⟨i, hi⟩).ts > t →
      detectOOO t fuel ancs = .ok true
  | 0, fuel, ancs, hi, hf, _, hinv => by
    match ancs, hi with
    | p :: rest, _ =>
      match fuel, hf with
      | n + 1, _ =>
        rw [detectOOO]
        exact if_pos hinv
  | i + 1, fuel, ancs, hi, hf, hbef, hinv => by
    match ancs, hi with
    | p :: rest, hi =>
      match fuel, hf with
      | n + 1, _ =>
        rw [detectOOO]
        have hp : ¬(p.ts > t) := hbef 0 (by simp) (Nat.succ_pos i)
        rw [if_neg hp]
        refine detectOOO_found t i n rest (by simpa using hi) (by omega) ?_ ?_
        · intro j hj hji
          have := hbef (j + 1) (by simpa using Nat.succ_lt_succ hj) (Nat.succ_lt_succ hji)
          simpa using this
        · simpa using hinv

theorem detectOOO_short (t : Int) :
    ∀ (fuel : Nat) (ancs : List Commit), ancs.length < fuel →
      (∀ x ∈ ancs, ¬(x.ts > t)) → detectOOO t fuel ancs = .error ()
  | 0, ancs, hlen, _ => by omega
  | fuel + 1, [], _, _ => by rw [detectOOO]
  | fuel + 1, p :: rest, hlen, hninv => by
    rw [detectOOO]
    rw [if_neg (hninv p (List.mem_cons_self p rest))]
    exact detectOOO_short t fuel rest (by simpa using hlen)
      (fun x hx => hninv x (List.mem_cons_of_mem p hx))

theorem buildLoop_never_crossed (t : Int) :
    ∀ (ancs rstack ooo : List Commit) (count : Int), count < 0 →
      (∀ x ∈ ancs, ¬(x.ts < t)) → buildLoop t ancs rstack ooo count = .error ()
  | [], rstack, ooo, count, hneg, _ => buildLoop_nil t rstack ooo count (by omega)
  | next :: rest, rstack, ooo, count, hneg, hnc => by
    rw [buildLoop_cons t next rest rstack ooo count (by omega)]
    have h1 : ¬(next.ts < t ∧ count < 0) := fun hh => hnc next (List.mem_cons_self _ _) hh.1
    rw [if_neg h1]
    have h2 : ¬(count > 0 ∧ next.ts > t) := fun hh => by omega
    rw [if_neg h2]
    exact buildLoop_never_crossed t rest _ _ (count - 1) (by omega)
      (fun x hx => hnc x (List.mem_cons_of_mem _ hx))

/-- C5: the lineage check returns true at the first ancestor whose timestamp
is strictly later than the reference commit's own timestamp, and when the
direct parent is already later it does so after exactly one parent lookup. -/
theorem detect_ooo_first_inversion (t : Int) (ancs : List Commit) (i : Nat)
    (hi : i < ancs.length) (hfuel : i < 200)
    (hbef : ∀ j (hj : j < ancs.length), j < i → ¬((ancs.get ⟨j, hj⟩).ts > t))
    (hinv : (ancs.get ⟨i, hi⟩).ts > t) :
    detectOOO t 200 ancs = .ok true
    ∧ ∀ p rest, ancs = p :: rest → i = 0 → detectOOON t 200 ancs = .ok (true, 1) := by
  refine ⟨detectOOO_found t i 200 ancs hi hfuel hbef hinv, ?_⟩
  rintro p rest rfl rfl
  have hp : p.ts > t := hinv
  show detectOOON t (199 + 1) (p :: rest) = .ok (true, 1)
  rw [detectOOON]
  exact if_pos hp

theorem detect_ooo_first_inversion_witness :
    detectOOO 5 200 [⟨1, 9⟩] = .ok true ∧ detectOOON 5 200 [⟨1, 9⟩] = .ok (true, 1) := by
  have h := detect_ooo_first_inversion 5 [⟨1, 9⟩] 0 (by decide) (by decide)
    (fun j hj hji => absurd hji (Nat.not_lt_zero j)) (by decide)
  exact ⟨h.1, h.2 ⟨1, 9⟩ [] rfl rfl⟩

/-- C2 counterexample: reaching the root of history is NOT a normal terminal
condition in the code: `parents[0]` on a parentless commit raises IndexError
(modelled `.error ()`).  A reference commit sitting at the root makes the
lineage check raise instead of returning false, and a traversal that never
crosses the reference timestamp raises at the root instead of stopping. -/
theorem root_not_error_cex :
    find_closest_commits 3 [] ⟨0, 5⟩ [] false false false = .error ()
    ∧ detectOOO 3 200 [] = .error ()
    ∧ buildLoop 3 [] [⟨0, 5⟩] [] (-1) = .error () := by
  refine ⟨?_, ?_, ?_⟩ <;> decide!

/-- C2 amended: reaching the root of history before the 200 steps of the
lineage check are exhausted with no inversion found raises IndexError
(`.error ()`), and the candidate-building traversal whose history never
crosses the reference timestamp likewise fails with IndexError upon reaching
the root rather than stopping there. -/
theorem root_reached_errors (t : Int) (ancsA ancsB rstack ooo : List Commit) (count : Int)
    (hshort : ancsA.length < 200) (hninv : ∀ x ∈ ancsA, ¬(x.ts > t))
    (hneg : count < 0) (hnc : ∀ x ∈ ancsB, ¬(x.ts < t)) :
    detectOOO t 200 ancsA = .error () ∧ buildLoop t ancsB rstack ooo count = .error () :=
  ⟨detectOOO_short t 200 ancsA hshort hninv,
    buildLoop_never_crossed t ancsB rstack ooo count hneg hnc⟩

theorem root_reached_errors_witness :
    detectOOO 7 200 [⟨1, 7⟩] = .error ()
      ∧ buildLoop 7 [⟨1, 7⟩] [⟨0, 9⟩] [] (-1) = .error () :=
  root_reached_errors 7 [⟨1, 7⟩] [⟨1, 7⟩] [⟨0, 9⟩] [] (-1) (by decide)
    (by decide) (by decide) (by decide)

/-- C4 counterexample: on exactly the scenario's three-commit target chain
(timestamps in hours since 2024-01-01T00:00Z: reference 228 = Jan 10 12:00,
chain [348, 204, 180] = Jan 15 / Jan 09 / Jan 08, each at 12:00, with an
in-order 200-deep reference lineage), the traversal runs past the root while
the 200-step countdown is still running and raises IndexError instead of
returning the Jan 09 commit as best. -/
theorem scenario_three_commits_cex :
    find_closest_commits 228 ((List.range 200).map (fun i => ⟨1000 + i, 100⟩))
      ⟨0, 348⟩ [⟨1, 204⟩, ⟨2, 180⟩] false false false = .error () := by
  decide!

/-- C4 amended: on the same scenario embedded in a sufficiently long history
(at least 198 additional commits older than the 2024-01-08 commit, so that
the 200-step countdown can complete before the root), the search returns the
2024-01-09 commit (distance 1 day) as best and the 2024-01-08 commit
(distance 2 days) as second best. -/
theorem scenario_extended_history :
    find_closest_commits 228 ((List.range 200).map (fun i => ⟨1000 + i, 100⟩))
      ⟨0, 348⟩ ([⟨1, 204⟩, ⟨2, 180⟩] ++ (List.range 198).map (fun i => ⟨3 + i, 0⟩))
      false false false = .ok (⟨1, 204⟩, some ⟨2, 180⟩) := by
  decide!

/-! ### The candidate stack invariant (C3) -/

/-- C3 counterexample: with reference timestamp 9, tip timestamp 10 and
ancestor timestamps [5, 8, 3, 3, ...], the commit at 8 is appended directly
after the commit at 5: the eviction compares only against the tip-end entry
(timestamp 10), so the finished stack is not non-increasing in committed
time, and nothing is diverted into the anomaly set. -/
theorem stack_nonincreasing_cex :
    (buildLoop 9 ([⟨1, 5⟩, ⟨2, 8⟩] ++ (List.range 199).map (fun i => ⟨3 + i, 3⟩))
      [⟨0, 10⟩] [] (-1)).map (fun p => nonIncreasingTs p.1.reverse) = .ok false := by
  decide!

/-- C3 amended: the finished candidate stack need not be non-increasing;
what the eviction rule does guarantee is that every entry of the finished
stack has a timestamp no later than the stack's tip-end (earliest appended,
first in Python order) entry. -/
theorem stack_bounded_by_tip_entry (t : Int) (tip : Commit) (ancs : List Commit) :
    ∀ s o, buildLoop t ancs [tip] [] (-1) = .ok (s, o) →
      ∀ b ∈ s.reverse.head?, ∀ x ∈ s.reverse, x.ts ≤ b.ts := by
  intro s o h b hb x hx
  rw [List.head?_reverse] at hb
  rw [List.mem_reverse] at hx
  exact buildLoop_bounded t ancs [tip] [] (-1) s o h (by simp) b hb x hx

theorem stack_bounded_by_tip_entry_witness :
    (buildLoop 9 ([⟨1, 5⟩, ⟨2, 8⟩] ++ (List.range 199).map (fun i => ⟨3 + i, 3⟩))
      [⟨0, 10⟩] [] (-1)).isOk = true
    ∧ ∀ s o, buildLoop 9 ([⟨1, 5⟩, ⟨2, 8⟩] ++ (List.range 199).map (fun i => ⟨3 + i, 3⟩))
        [⟨0, 10⟩] [] (-1) = .ok (s, o) →
        ∀ b ∈ s.reverse.head?, ∀ x ∈ s.reverse, x.ts ≤ b.ts :=
  ⟨by decide!, stack_bounded_by_tip_entry 9 ⟨0, 10⟩ _⟩

/-! ### The countdown window (C6) -/

theorem buildLoopN_stop (t : Int) (remaining rstack ooo : List Commit) (k : Nat) :
    buildLoopN t remaining rstack ooo 0 k = .ok (rstack, ooo, k) := by
  cases remaining <;> rw [buildLoopN] <;> simp

theorem buildLoopN_cons (t : Int) (next : Commit) (rest rstack ooo : List Commit)
    (count : Int) (k : Nat) (hc : count ≠ 0) :
    buildLoopN t (next :: rest) rstack ooo count k
      = buildLoopN t rest (next :: (evictLoop next rstack ooo).1) (evictLoop next rstack ooo).2
        (((if (if next.ts < t ∧ count < 0 then (200 : Int) else count) > 0 ∧ next.ts > t
            then (-1 : Int)
            else if next.ts < t ∧ count < 0 then (200 : Int) else count)) - 1) (k + 1) := by
  rw [buildLoopN]
  simp [hc]

theorem buildLoopN_countdown (t : Int) :
    ∀ (c : Nat) (post rstack ooo : List Commit) (k : Nat),
      c ≤ post.length → (∀ x ∈ post, x.ts < t) →
      ∃ s o, buildLoopN t post rstack ooo (c : Int) k = .ok (s, o, k + c)
  | 0, post, rstack, ooo, k, _, _ =>
    ⟨rstack, ooo, by simpa using buildLoopN_stop t post rstack ooo k⟩
  | c + 1, post, rstack, ooo, k, hlen, hlt => by
    match post, hlen with
    | next :: rest, hlen =>
      have hne : (((c + 1 : Nat) : Int)) ≠ 0 := by exact_mod_cast Nat.succ_ne_zero c
      rw [buildLoopN_cons t next rest rstack ooo _ k hne]
      have h1 : ¬(next.ts < t ∧ (((c + 1 : Nat) : Int)) < 0) := by
        intro hh
        omega
      rw [if_neg h1]
      have h2 : ¬((((c + 1 : Nat) : Int)) > 0 ∧ next.ts > t) := by
        intro hh
        have hx := hlt next (List.mem_cons_self _ _)
        omega
      rw [if_neg h2]
      have h3 : (((c + 1 : Nat) : Int)) - 1 = (c : Int) := by push_cast; ring
      rw [h3]
      obtain ⟨s, o, hso⟩ := buildLoopN_countdown t c rest
        (next :: (evictLoop next rstack ooo).1) (evictLoop next rstack ooo).2 (k + 1)
        (by simpa using hlen) (fun x hx => hlt x (List.mem_cons_of_mem _ hx))
      refine ⟨s, o, ?_⟩
      rw [hso]
      have h4 : k + 1 + c = k + (c + 1) := by omega
      rw [h4]

theorem buildLoopN_precross (t : Int) :
    ∀ (pre rest rstack ooo : List Commit) (k : Int) (n : Nat), k < 0 →
      (∀ x ∈ pre, t ≤ x.ts) →
      ∃ rs2 oo2, buildLoopN t (pre ++ rest) rstack ooo k n
        = buildLoopN t rest rs2 oo2 (k - pre.length) (n + pre.length)
  | [], rest, rstack, ooo, k, n, hk, _ => ⟨rstack, ooo, by simp⟩
  | p :: pre2, rest, rstack, ooo, k, n, hk, hpre => by
    rw [List.cons_append, buildLoopN_cons t p (pre2 ++ rest) rstack ooo k n (by omega)]
    have h1 : ¬(p.ts < t ∧ k < 0) := by
      intro hh
      have := hpre p (List.mem_cons_self _ _)
      omega
    rw [if_neg h1]
    have h2 : ¬(k > 0 ∧ p.ts > t) := by intro hh; omega
    rw [if_neg h2]
    obtain ⟨rs2, oo2, h⟩ := buildLoopN_precross t pre2 rest
      (p :: (evictLoop p rstack ooo).1) (evictLoop p rstack ooo).2 (k - 1) (n + 1)
      (by omega) (fun x hx => hpre x (List.mem_cons_of_mem _ hx))
    refine ⟨rs2, oo2, ?_⟩
    rw [h]
    have e1 : k - 1 - (pre2.length : Int) = k - ((p :: pre2).length : Int) := by
      simp only [List.length_cons]
      push_cast
      ring
    have e2 : n + 1 + pre2.length = n + (p :: pre2).length := by
      simp only [List.length_cons]
      omega
    rw [e1, e2]

/-- C6: the countdown window.  The counter stays inactive (negative) while
commits are at or after the reference timestamp; the first commit strictly
earlier sets it to 200; it is decremented once per visited commit; a commit
later than the reference while it runs resets it to inactive (the second
conjunct); it stops the traversal at zero.  Consequently, when every commit
past the crossing point is older than the reference timestamp (and there are
enough of them for the countdown to finish), the traversal performs exactly
crossing-index + 199 parent lookups, i.e. visits, counting the tip, at most
crossing-index + 200 commits (first conjunct). -/
theorem countdown_bound (t : Int) (tip cross : Commit) (pre post : List Commit)
    (hpre : ∀ x ∈ pre, t ≤ x.ts) (hcross : cross.ts < t)
    (hpost : ∀ x ∈ post, x.ts < t) (hlen : 199 ≤ post.length) :
    (∃ s o n, buildLoopN t (pre ++ cross :: post) [tip] [] (-1) 0 = .ok (s, o, n)
      ∧ n + 1 ≤ (pre.length + 1) + 200)
    ∧ (∀ (next : Commit) (rest rstack ooo : List Commit) (c : Int) (k : Nat),
        0 < c → t < next.ts →
        buildLoopN t (next :: rest) rstack ooo c k
          = buildLoopN t rest (next :: (evictLoop next rstack ooo).1)
            (evictLoop next rstack ooo).2 (-2) (k + 1)) := by
  constructor
  · obtain ⟨rs2, oo2, hA⟩ := buildLoopN_precross t pre (cross :: post) [tip] [] (-1) 0
      (by omega) hpre
    rw [hA]
    rw [buildLoopN_cons t cross post rs2 oo2 _ _ (by omega)]
    rw [if_pos (show cross.ts < t ∧ (-1 : Int) - (pre.length : Int) < 0 from
      ⟨hcross, by omega⟩)]
    have h2 : ¬((200 : Int) > 0 ∧ cross.ts > t) := by intro hh; omega
    rw [if_neg h2]
    have h3 : (200 : Int) - 1 = ((199 : Nat) : Int) := by norm_num
    rw [h3]
    obtain ⟨s, o, hB⟩ := buildLoopN_countdown t 199 post
      (cross :: (evictLoop cross rs2 oo2).1) (evictLoop cross rs2 oo2).2
      (0 + pre.length + 1) hlen hpost
    refine ⟨s, o, 0 + pre.length + 1 + 199, hB, by omega⟩
  · intro next rest rstack ooo c k hc hlater
    rw [buildLoopN_cons t next rest rstack ooo c k (by omega)]
    have h1 : ¬(next.ts < t ∧ c < 0) := by intro hh; omega
    rw [if_neg h1]
    rw [if_pos ⟨hc, hlater⟩]
    have h4 : (-1 : Int) - 1 = -2 := by norm_num
    rw [h4]

theorem countdown_bound_witness :
    (buildLoopN 5 ((⟨1, 0⟩ : Commit) :: (List.range 199).map (fun i => ⟨2 + i, 0⟩))
      [⟨0, 9⟩] [] (-1) 0).isOk = true := by
  obtain ⟨s, o, n, h, -⟩ := (countdown_bound 5 ⟨0, 9⟩ ⟨1, 0⟩ []
    ((List.range 199).map (fun i => ⟨2 + i, 0⟩))
    (by simp) (by decide)
    (by
      intro x hx
      simp only [List.mem_map] at hx
      obtain ⟨i, -, rfl⟩ := hx
      show (0 : Int) < 5
      norm_num)
    (by simp)).1
  simp only [List.nil_append] at h
  rw [h]
  rfl

/-! ### Disjointness of stack and anomaly set (C9) -/

/-- C9: at the end of candidate building no commit is present in both the
candidate stack and the anomaly set; for a duplicate-free history the two
collections together hold exactly the visited commits (the tip followed by a
prefix of its ancestor chain), each in exactly one of the two. -/
theorem build_candidates_disjoint (t : Int) (tip : Commit) (ancs : List Commit)
    (hnd : (tip :: ancs).Nodup) :
    ∀ s o, buildLoop t ancs [tip] [] (-1) = .ok (s, o) →
      (∃ n, (s ++ o).Perm (tip :: ancs.take n)) ∧ ∀ c ∈ s, c ∉ o := by
  intro s o h
  obtain ⟨n, hperm⟩ := buildLoop_perm t ancs [tip] [] (-1) s o h
  have hperm2 : (s ++ o).Perm (tip :: ancs.take n) := by
    refine hperm.trans ?_
    simp
  refine ⟨⟨n, hperm2⟩, ?_⟩
  have hsub : (tip :: ancs.take n).Sublist (tip :: ancs) :=
    (List.take_sublist n ancs).cons₂ tip
  have hnd2 : (tip :: ancs.take n).Nodup := List.Nodup.sublist hsub hnd
  have hnd3 : (s ++ o).Nodup := hperm2.nodup_iff.mpr hnd2
  intro c hc
  exact List.disjoint_of_nodup_append hnd3 hc

theorem build_candidates_disjoint_witness :
    (buildLoop 5 ((List.range 200).map (fun i => ⟨1 + i, 4⟩))
      [⟨0, 10⟩] [] (-1)).isOk = true
    ∧ ∀ s o, buildLoop 5 ((List.range 200).map (fun i => ⟨1 + i, 4⟩))
        [⟨0, 10⟩] [] (-1) = .ok (s, o) →
        (∃ n, (s ++ o).Perm (⟨0, 10⟩ :: ((List.range 200).map
          (fun i => (⟨1 + i, 4⟩ : Commit))).take n)) ∧ ∀ c ∈ s, c ∉ o :=
  ⟨by decide!, build_candidates_disjoint 5 ⟨0, 10⟩ _ (by decide!)⟩

/-! ### Eviction of the branch tip (C10) -/

theorem mergedFiltered_subset_candidates (c a : List Commit) (t : Int) (af bf : Bool) :
    ∀ x ∈ mergedFiltered c a t false af bf, x ∈ c := by
  intro x hx
  cases af <;> cases bf <;> simp [mergedFiltered, List.mem_filter] at hx <;> tauto

/-- C10: if the primary parent of the branch tip has a strictly later
timestamp than the tip, the first traversal step evicts the tip from the
candidate stack into the anomaly set; consequently, when anomalies are not
merged back (the reference is in order and no force-inclusion flag is set),
the tip can be returned neither as best nor as second best. -/
theorem tip_evicted_parent_later (t : Int) (tip p : Commit) (rest : List Commit)
    (hp : tip.ts < p.ts) (hnd : (tip :: p :: rest).Nodup) :
    ∀ s o, buildLoop t (p :: rest) [tip] [] (-1) = .ok (s, o) →
      tip ∈ o ∧ tip ∉ s
      ∧ (∀ af bf b sb, select_closest s.reverse o t false af bf = some (b, sb) →
          b ≠ tip ∧ ∀ s2 ∈ sb, s2 ≠ tip)
      ∧ (∀ refAncs af bf b sb, detectOOO t 200 refAncs = .ok false →
          find_closest_commits t refAncs tip (p :: rest) false af bf = .ok (b, sb) →
          b ≠ tip ∧ ∀ s2 ∈ sb, s2 ≠ tip) := by
  intro s o h
  have hev : evictLoop p [tip] [] = ([], [tip]) := by
    rw [evictLoop]
    rw [if_pos (by simpa using hp)]
    rw [evictLoop]
    rfl
  have h2 := h
  rw [buildLoop_cons t p rest [tip] [] (-1) (by norm_num)] at h2
  rw [hev] at h2
  have htipo : tip ∈ o :=
    buildLoop_ooo_mono t tip rest [p] [tip] _ s o h2 (List.mem_cons_self _ _)
  obtain ⟨n, hperm⟩ := buildLoop_perm t rest [p] [tip] _ s o h2
  have hperm2 : (s ++ o).Perm (p :: tip :: rest.take n) := by
    refine hperm.trans ?_
    simp
  have hnd2 : (p :: tip :: rest.take n).Nodup := by
    have hswap : (p :: tip :: rest).Nodup :=
      (List.Perm.swap p tip rest).nodup_iff.mp hnd
    exact List.Nodup.sublist (((List.take_sublist n rest).cons₂ tip).cons₂ p) hswap
  have hnd3 : (s ++ o).Nodup := hperm2.nodup_iff.mpr hnd2
  have htips : tip ∉ s := by
    intro hts
    exact List.disjoint_of_nodup_append hnd3 hts htipo
  have hsel : ∀ af bf b sb, select_closest s.reverse o t false af bf = some (b, sb) →
      b ≠ tip ∧ ∀ s2 ∈ sb, s2 ≠ tip := by
    intro af bf b sb hs
    obtain ⟨hb, hsb⟩ := select_closest_mem s.reverse o t false af bf b sb hs
    constructor
    · intro hbt
      subst hbt
      exact htips (List.mem_reverse.mp
        (mergedFiltered_subset_candidates s.reverse o t af bf b hb))
    · intro s2 hs2 hs2t
      subst hs2t
      exact htips (List.mem_reverse.mp
        (mergedFiltered_subset_candidates s.reverse o t af bf s2 (hsb s2 hs2)))
  refine ⟨htipo, htips, hsel, ?_⟩
  intro refAncs af bf b sb hdet hfc
  rw [find_closest_commits, hdet] at hfc
  simp only [Bool.or_self] at hfc
  rw [h] at hfc
  have hfc2 : (match select_closest s.reverse o t false af bf with
      | some r => (Except.ok r : Except Unit (Commit × Option Commit))
      | none => Except.error ()) = Except.ok (b, sb) := hfc
  cases hselr : select_closest s.reverse o t false af bf with
  | none =>
    rw [hselr] at hfc2
    simp at hfc2
  | some r =>
    rw [hselr] at hfc2
    simp only [Except.ok.injEq] at hfc2
    subst hfc2
    exact hsel af bf b sb hselr

theorem tip_evicted_parent_later_witness :
    (buildLoop 6 ((⟨1, 20⟩ : Commit) :: (List.range 200).map (fun i => ⟨2 + i, 0⟩))
      [⟨0, 10⟩] [] (-1)).isOk = true
    ∧ ∀ s o, buildLoop 6 ((⟨1, 20⟩ : Commit) :: (List.range 200).map (fun i => ⟨2 + i, 0⟩))
        [⟨0, 10⟩] [] (-1) = .ok (s, o) → (⟨0, 10⟩ : Commit) ∈ o ∧ (⟨0, 10⟩ : Commit) ∉ s :=
  ⟨by decide!, fun s o h => by
    have hres := tip_evicted_parent_later 6 ⟨0, 10⟩ ⟨1, 20⟩
      ((List.range 200).map (fun i => ⟨2 + i, 0⟩)) (by decide) (by decide!) s o h
    exact ⟨hres.1, hres.2.1⟩⟩

end MatchCommits
